import Mathlib

/-!
Verification of the crypto-portfolio ingestion-and-analytics pipeline.

The Python sources under `apps/api` are shallowly embedded here:
`Decimal` values become `ℚ` with explicit quantization (Python
`Decimal.quantize(..., ROUND_HALF_UP)` is round-half-away-from-zero, the
default `quantize` context rounding is half-even), Python `None` becomes
`Option`, SQL rows become Lean structures, and dates are carried as the
day number `ℤ` because the code only ever compares date-truncated
timestamps for equality and order.
-/

namespace CryptoPortfolio

/-- Round to an integer, halves away from zero — the semantics of Python
`Decimal.quantize(..., rounding=ROUND_HALF_UP)` and of PostgreSQL
`ROUND(numeric, n)`. -/
def roundHalfUpZ (x : ℚ) : ℤ :=
  if 0 ≤ x then ⌊x + 1/2⌋ else -⌊-x + 1/2⌋

/-- Round to an integer, halves to even — the semantics of Python
`Decimal.quantize(Decimal("1"))` under the default context rounding
(`ROUND_HALF_EVEN`). -/
def roundHalfEvenZ (x : ℚ) : ℤ :=
  if x - ⌊x⌋ < 1/2 then ⌊x⌋
  else if 1/2 < x - ⌊x⌋ then ⌊x⌋ + 1
  else if ⌊x⌋ % 2 = 0 then ⌊x⌋ else ⌊x⌋ + 1

/-- `quantize(PRICE_PRECISION, ROUND_HALF_UP)`: 8 fractional digits, half-up. -/
def quantize8 (x : ℚ) : ℚ := (roundHalfUpZ (x * 100000000) : ℚ) / 100000000

/-- `quantize(PCT_PRECISION, ROUND_HALF_UP)`: 2 fractional digits, half-up. -/
def quantize2 (x : ℚ) : ℚ := (roundHalfUpZ (x * 100) : ℚ) / 100

/-- `quantize(Decimal("1"))`: nearest integer, half-even. -/
def quantizeInt (x : ℚ) : ℚ := (roundHalfEvenZ x : ℚ)

/-- The fields of a `transactions` row (`models/transaction.py`) consumed by
the analytics kernels and the enrichment step.  `executedDay` is the calendar
day of `executed_at` (the code compares only `executed_at::date`). -/
structure Tx where
  type : String
  quantity : ℚ
  price : Option ℚ
  total_value_usd : Option ℚ
  quote_asset : Option String
  executedDay : ℤ
  deriving DecidableEq

/-- A FIFO lot, `portfolio_service.FIFOLot`. -/
structure FIFOLot where
  quantity : ℚ
  unit_cost : ℚ
  unit_cost_eur : ℚ
  deriving DecidableEq

/-- The result record of `compute_fifo`, `portfolio_service.FIFOResult`. -/
structure FIFOResult where
  remaining_lots : List FIFOLot
  realized_pnl : ℚ
  cost_basis : ℚ
  cost_basis_eur : ℚ
  deriving DecidableEq

/-- `portfolio_service._usd_unit_cost`: `total_value_usd / quantity`
(quantized, half-up, 8 digits) when `total_value_usd` is set and the
quantity is positive; else the stored `price`; else zero. -/
def usd_unit_cost (tx : Tx) : ℚ :=
  match tx.total_value_usd with
  | some v => if 0 < tx.quantity then quantize8 (v / tx.quantity) else tx.price.getD 0
  | none => tx.price.getD 0

/-- `portfolio_service._eur_unit_cost`: for EUR-quoted trades the stored
price is already EUR; otherwise convert the USD unit cost at the current
EUR/USD rate (zero if the rate is non-positive). -/
def eur_unit_cost (tx : Tx) (eur_usd : ℚ) : ℚ :=
  if tx.quote_asset = some "EUR" then tx.price.getD 0
  else if eur_usd ≤ 0 then 0
  else quantize8 (usd_unit_cost tx / eur_usd)

/-- Sell price used inside `compute_fifo`:
`_usd_unit_cost(sell) if sell.total_value_usd is not None else (sell.price or 0)`. -/
def sell_price (tx : Tx) : ℚ :=
  match tx.total_value_usd with
  | some _ => usd_unit_cost tx
  | none => tx.price.getD 0

/-- The inner `while qty_to_sell > 0 and lots:` loop of `compute_fifo`.
Returns the realized-P&L increment of this sell and the lots left over.
A head lot whose quantity is at most the outstanding sell quantity is
popped whole; otherwise it is replaced with its quantity reduced and the
same unit costs. -/
def consumeLots (sp : ℚ) (q : ℚ) : List FIFOLot → ℚ × List FIFOLot
  | [] => (0, [])
  | l :: ls =>
    if 0 < q then
      if l.quantity ≤ q then
        let r := consumeLots sp (q - l.quantity) ls
        ((sp - l.unit_cost) * l.quantity + r.1, r.2)
      else
        ((sp - l.unit_cost) * q, ⟨l.quantity - q, l.unit_cost, l.unit_cost_eur⟩ :: ls)
    else (0, l :: ls)

/-- The `for sell in sells:` loop of `compute_fifo`: realized P&L
accumulated over all sells, together with the final lot queue. -/
def applySells : List Tx → List FIFOLot → ℚ × List FIFOLot
  | [], lots => (0, lots)
  | s :: rest, lots =>
    let r := consumeLots (sell_price s) s.quantity lots
    let r2 := applySells rest r.2
    (r.1 + r2.1, r2.2)

/-- Initial lot queue of `compute_fifo`: one lot per buy, in input order. -/
def mkLots (buys : List Tx) (eur_usd : ℚ) : List FIFOLot :=
  buys.map fun tx => ⟨tx.quantity, usd_unit_cost tx, eur_unit_cost tx eur_usd⟩

/-- Sum of the quantities of a lot list. -/
def lotsTotal (lots : List FIFOLot) : ℚ :=
  (lots.map FIFOLot.quantity).sum

/-- `portfolio_service.compute_fifo`. -/
def compute_fifo (buys sells : List Tx) (eur_usd : ℚ) : FIFOResult :=
  let r := applySells sells (mkLots buys eur_usd)
  { remaining_lots := r.2
    realized_pnl := quantize8 r.1
    cost_basis := quantize8 ((r.2.map fun l => l.quantity * l.unit_cost).sum)
    cost_basis_eur := quantize8 ((r.2.map fun l => l.quantity * l.unit_cost_eur).sum) }

/-- One iteration of the `for tx in transactions:` loop of `compute_vwap`:
skip the transaction when its USD unit cost is zero, else add
`unit_cost * qty` to `total_cost` and `qty` to `total_qty`. -/
def vwapStep (a : ℚ × ℚ) (tx : Tx) : ℚ × ℚ :=
  let c := usd_unit_cost tx
  if c = 0 then a else (a.1 + c * tx.quantity, a.2 + tx.quantity)

/-- `portfolio_service.compute_vwap`: accumulate `Σ unit_cost·qty` and
`Σ qty` over the transactions, skipping those whose USD unit cost is zero;
zero when the quantity accumulator stays zero, else the quantized quotient. -/
def compute_vwap (txs : List Tx) : ℚ :=
  let acc := txs.foldl vwapStep (0, 0)
  if acc.2 = 0 then 0 else quantize8 (acc.1 / acc.2)

/-- Specification-side numerator of the VWAP claim:
`Σ (usd_unit_cost_i × qty_i)` over the transactions with nonzero usd unit
cost. -/
def vwapNum (txs : List Tx) : ℚ :=
  ((txs.filter fun t => usd_unit_cost t ≠ 0).map fun t => usd_unit_cost t * t.quantity).sum

/-- Specification-side denominator of the VWAP claim: `Σ qty_i` over the
transactions with nonzero usd unit cost. -/
def vwapDen (txs : List Tx) : ℚ :=
  ((txs.filter fun t => usd_unit_cost t ≠ 0).map Tx.quantity).sum

/-- The fields of a `portfolio_snapshots` row used by `compute_drawdown`;
`snapshotDay` stands for `snapshot_date`. -/
structure Snap where
  snapshotDay : ℤ
  total_value_usd : ℚ
  deriving DecidableEq

/-- The result record of `compute_drawdown`, `portfolio_service.DrawdownResult`
(dates as day numbers). -/
structure DrawdownResult where
  max_drawdown_pct : ℚ
  peak_day : Option ℤ
  trough_day : Option ℤ
  peak_value_usd : ℚ
  trough_value_usd : ℚ
  deriving DecidableEq

/-- The loop state of `compute_drawdown`: running maximum and its snapshot,
worst drawdown so far with its peak and trough snapshots. -/
structure DDState where
  running_max : ℚ
  running_max_snap : Snap
  worst : ℚ
  worst_peak : Snap
  worst_trough : Snap

/-- First half of the `for snap in snapshots:` loop body of
`compute_drawdown`: raise the running maximum when the snapshot value
strictly exceeds it. -/
def ddUpdateMax (st : DDState) (s : Snap) : DDState :=
  if st.running_max < s.total_value_usd then
    { st with running_max := s.total_value_usd, running_max_snap := s }
  else st

/-- Second half of the loop body: when the running maximum is positive,
compute the drawdown of the current snapshot against it and record it if
it is strictly worse than the worst seen so far. -/
def ddUpdateWorst (st1 : DDState) (s : Snap) : DDState :=
  if 0 < st1.running_max then
    let dd := (s.total_value_usd - st1.running_max) / st1.running_max
    if dd < st1.worst then
      { st1 with worst := dd, worst_peak := st1.running_max_snap, worst_trough := s }
    else st1
  else st1

/-- One iteration of the `for snap in snapshots:` loop of `compute_drawdown`. -/
def ddStep (st : DDState) (s : Snap) : DDState :=
  ddUpdateWorst (ddUpdateMax st s) s

/-- `portfolio_service.compute_drawdown`. -/
def compute_drawdown : List Snap → DrawdownResult
  | [] => ⟨0, none, none, 0, 0⟩
  | s0 :: rest =>
    let st := (s0 :: rest).foldl ddStep ⟨0, s0, 0, s0, s0⟩
    ⟨quantize2 (st.worst * 100), some st.worst_peak.snapshotDay,
      some st.worst_trough.snapshotDay, st.worst_peak.total_value_usd,
      st.worst_trough.total_value_usd⟩

/-- Specification-side predicate: the value series is monotonically
non-decreasing. -/
def nonDecreasing : List ℚ → Prop
  | [] => True
  | [_] => True
  | x :: y :: rest => x ≤ y ∧ nonDecreasing (y :: rest)

/-- Specification-side accounting of the sell quantity actually consumed by
FIFO: each sell consumes `min(sell_qty, still-available quantity)`; the
excess of a sell beyond the available lots is discarded. -/
def consumedFold (avail : ℚ) : List ℚ → ℚ
  | [] => 0
  | q :: qs => min q avail + consumedFold (avail - min q avail) qs

/-- Sum of the buy quantities. -/
def buysTotal (buys : List Tx) : ℚ := (buys.map Tx.quantity).sum

/-- Specification-side shape predicate for claim C10: `rem` is a contiguous
suffix of `orig` in which every lot keeps its unit costs and only the first
lot's quantity may have been reduced (by `δ ≥ 0`). -/
def suffixWithHeadReduced (orig rem : List FIFOLot) : Prop :=
  rem = [] ∨
    ∃ k δ l ls, orig.drop k = l :: ls ∧ 0 ≤ δ ∧
      rem = ⟨l.quantity - δ, l.unit_cost, l.unit_cost_eur⟩ :: ls

/-- Dictionary lookup `price_by_date[d]` (`dashboard.py`): the daily-close
map is an association list from day number to close price. -/
def lookupDay (m : List (ℤ × ℚ)) (d : ℤ) : Option ℚ :=
  (m.find? fun p => p.1 == d).map Prod.snd

/-- The `prior` list of `dashboard._timing_percentile`: the closes of the
days `buy_date − 1 .. buy_date − 30` that are present in the map, in that
order. -/
def priorPrices (m : List (ℤ × ℚ)) (buyDay : ℤ) : List ℚ :=
  (List.range 30).filterMap fun i => lookupDay m (buyDay - ((i : ℤ) + 1))

/-- `dashboard._timing_percentile`: percentile of the buy price within the
range of the previous 30 daily closes, clamped to [0, 100] and quantized to
an integer (`Decimal("1")`, default half-even); 50 when the range is
degenerate; `none` without prior data. -/
def timing_percentile (buyDay : ℤ) (buyPrice : ℚ) (m : List (ℤ × ℚ)) : Option ℚ :=
  match priorPrices m buyDay with
  | [] => none
  | p :: ps =>
    let lo := ps.foldl min p
    let hi := ps.foldl max p
    if hi = lo then some 50
    else some (quantizeInt (max 0 (min 100 ((buyPrice - lo) / (hi - lo) * 100))))

/-- Outcome of one sync step as observed by `SyncService._run_step`: either
the coroutine finished, or it raised and the message was captured. -/
inductive StepResult
  | ok
  | err (msg : String)
  deriving DecidableEq

/-- Observable outcome of `SyncService.sync_all`: the final
`Account.sync_status` and the accumulated `SyncStats.errors`. -/
structure SyncOutcome where
  sync_status : String
  errors : List String
  deriving DecidableEq

/-- The error records accumulated by the successive `_run_step` calls:
`_run_step` catches `BinanceAPIError` and `Exception`, appends
`f"{name}: {exc}"` to `stats.errors`, and never re-raises. -/
def stepErrors (steps : List (String × StepResult)) : List String :=
  steps.foldl
    (fun acc s =>
      match s.2 with
      | .ok => acc
      | .err m => acc ++ [s.1 ++ ": " ++ m])
    []

/-- `SyncService.sync_all` on the normal path: every step runs inside
`_run_step`, which captures all step exceptions, so control always reaches
the final `await self._set_status("idle")` — the status is written as
`idle` regardless of the accumulated error records.  (The `except` branch
that writes `error` is reachable only if a status commit itself raises.) -/
def sync_all (steps : List (String × StepResult)) : SyncOutcome :=
  { sync_status := "idle", errors := stepErrors steps }

/-- A stored trade row as seen by `SyncService._get_last_trade_id`:
`binance_id` is a VARCHAR column, `symbol` is `raw_data["symbol"]`. -/
structure StoredTrade where
  account_id : String
  binance_id : String
  type : String
  symbol : String
  deriving DecidableEq

/-- SQL `MAX` over a VARCHAR column: the lexicographically greatest string
(`NULL`, i.e. `none`, on an empty set).  The comparison is on the underlying
character lists, which is exactly `String.instLT` and matches the collation
order on the ASCII digit strings stored for trades. -/
def maxString : List String → Option String
  | [] => none
  | s :: rest => some (rest.foldl (fun a b => if a.data < b.data then b else a) s)

/-- Python `int(...)` on the digit-only exchange trade ids stored by
`_map_trade` (`binance_id = str(raw["id"])`). -/
def pyInt (s : String) : ℤ :=
  (s.data.foldl (fun n c => n * 10 + (c.toNat - 48)) 0 : ℕ)

/-- `SyncService._get_last_trade_id`: `SELECT MAX(binance_id)` over the
account's buy/sell rows whose `raw_data["symbol"]` equals the pair, then
`int(last) + 1 if last else None`. -/
def get_last_trade_id (store : List StoredTrade) (account symbol : String) : Option ℤ :=
  let ids := (store.filter fun t =>
    t.account_id = account ∧ (t.type = "buy" ∨ t.type = "sell") ∧ t.symbol = symbol).map
    StoredTrade.binance_id
  match maxString ids with
  | none => none
  | some s => if s = "" then none else some (pyInt s + 1)

/-- Specification-side start id for the incremental trade sync: the numeric
maximum of the known exchange trade ids for the pair, plus one — the claim's
`max(known_id) + 1`. -/
def numericLastTradeIdSpec (store : List StoredTrade) (account symbol : String) : Option ℤ :=
  (((store.filter fun t =>
      t.account_id = account ∧ (t.type = "buy" ∨ t.type = "sell") ∧ t.symbol = symbol).map
      StoredTrade.binance_id).map pyInt).max?.map (· + 1)

/-- A `price_history` row (`models/price_history.py`); `openDay` is the
calendar day of `open_at`. -/
structure PhRow where
  symbol : String
  interval : String
  openDay : ℤ
  close : ℚ
  deriving DecidableEq

/-- The join of the EUR enrichment UPDATE: the `price_history` row with
`symbol='EURUSDT'`, `interval='1d'` and `open_at::date = executed_at::date`
(first match; the table is unique on (symbol, interval, open_at)). -/
def eurCloseOn (ph : List PhRow) (day : ℤ) : Option PhRow :=
  ph.find? fun r => r.symbol == "EURUSDT" && r.interval == "1d" && r.openDay == day

/-- First UPDATE of `SyncService._enrich_trade_usd_values`: rows with a null
`total_value_usd`, a USD-or-stablecoin quote asset and a non-null price get
`total_value_usd = ROUND(price * quantity, 8)`. -/
def enrichRowUSD (t : Tx) : Tx :=
  match t.total_value_usd, t.quote_asset, t.price with
  | none, some qa, some p =>
    if qa ∈ ["USDT", "BUSD", "FDUSD", "USD"] then
      { t with total_value_usd := some (quantize8 (p * t.quantity)) }
    else t
  | _, _, _ => t

/-- Second UPDATE of `SyncService._enrich_trade_usd_values`: rows with a
null `total_value_usd`, quote asset EUR and a non-null price joined to the
same-day EURUSDT daily candle get
`total_value_usd = ROUND(price * quantity * close, 8)`. -/
def enrichRowEUR (ph : List PhRow) (t : Tx) : Tx :=
  match t.total_value_usd, t.quote_asset, t.price with
  | none, some qa, some p =>
    if qa = "EUR" then
      match eurCloseOn ph t.executedDay with
      | some r => { t with total_value_usd := some (quantize8 (p * t.quantity * r.close)) }
      | none => t
    else t
  | _, _, _ => t

/-- Effect of `_enrich_trade_usd_values` on one row: the USD update runs
first, then the EUR update. -/
def enrichRow (ph : List PhRow) (t : Tx) : Tx :=
  enrichRowEUR ph (enrichRowUSD t)

/-- `SyncService._enrich_trade_usd_values` over the account's transaction
rows (the system has exactly one account, so the `account_id` filter selects
every row supplied here). -/
def enrich_trade_usd_values (ph : List PhRow) (txs : List Tx) : List Tx :=
  (txs.map enrichRowUSD).map (enrichRowEUR ph)

/-- Python dict item assignment / dict-literal override semantics on an
insertion-ordered association list with unique keys: replace the value in
place when the key exists, else append. -/
def pySet (d : List (String × String)) (k v : String) : List (String × String) :=
  if d.any fun p => p.1 == k then
    d.map fun p => if p.1 == k then (k, v) else p
  else d ++ [(k, v)]

/-- Hex digit (uppercase) used by percent-encoding. -/
def hexDigitChar (n : ℕ) : Char :=
  if n < 10 then Char.ofNat (48 + n) else Char.ofNat (55 + n)

/-- Characters `urllib.parse.quote_plus` leaves unescaped. -/
def isUrlSafe (c : Char) : Bool :=
  c.isAlphanum || c == '_' || c == '.' || c == '-' || c == '~'

/-- Percent-encoding of one UTF-8 byte (`quote_plus`: space becomes `+`,
safe ASCII passes through, anything else becomes `%XX`). -/
def quoteByte (b : UInt8) : String :=
  let n := b.toNat
  if n == 32 then "+"
  else if n < 128 && isUrlSafe (Char.ofNat n) then String.singleton (Char.ofNat n)
  else "%" ++ String.singleton (hexDigitChar (n / 16)) ++ String.singleton (hexDigitChar (n % 16))

/-- `urllib.parse.quote_plus` on a string: encode to UTF-8, escape each byte. -/
def quotePlus (s : String) : String :=
  String.join (s.toUTF8.toList.map quoteByte)

/-- Python `"&".join` as used by `urlencode`. -/
def joinAmp : List String → String
  | [] => ""
  | [x] => x
  | x :: y :: rest => x ++ "&" ++ joinAmp (y :: rest)

/-- `urllib.parse.urlencode` on an insertion-ordered parameter dict:
`k1=v1&k2=v2&...` with `quote_plus` applied to keys and values. -/
def urlencode (params : List (String × String)) : String :=
  joinAmp (params.map fun p => quotePlus p.1 ++ "=" ++ quotePlus p.2)

/-- `BinanceClient._sign`: build a fresh dict `{**params, timestamp,
recvWindow=5000}`, serialize it with `urlencode`, compute the HMAC-SHA256
signature of that exact serialization, and append it under `signature`.
The HMAC primitive (`hmac.new(...).hexdigest()`) is an opaque parameter:
the claims are about which string is signed, not about SHA-256 itself. -/
def sign (hmacSha256 : String → String → String) (api_secret : String) (nowMs : ℕ)
    (params : List (String × String)) : List (String × String) :=
  let signed := pySet (pySet params "timestamp" (toString nowMs)) "recvWindow" "5000"
  let signature := hmacSha256 api_secret (urlencode signed)
  pySet signed "signature" signature

/-- Lookup of a key in a parameter dict. -/
def lookupParam (d : List (String × String)) (k : String) : Option String :=
  (d.find? fun p => p.1 == k).map Prod.snd

/-- The parameter dict with the `signature` entry removed — the claim's
"all parameters except the signature itself". -/
def withoutSignature (d : List (String × String)) : List (String × String) :=
  d.filter fun p => p.1 != "signature"

theorem lotsTotal_cons (l : FIFOLot) (ls : List FIFOLot) :
    lotsTotal (l :: ls) = l.quantity + lotsTotal ls := by
  simp [lotsTotal]

theorem lotsTotal_nonneg (lots : List FIFOLot) (h : ∀ l ∈ lots, 0 ≤ l.quantity) :
    0 ≤ lotsTotal lots := by
  induction lots with
  | nil => simp [lotsTotal]
  | cons l ls ih =>
    rw [lotsTotal_cons]
    have h1 := h l (by simp)
    have h2 := ih fun x hx => h x (by simp [hx])
    linarith

theorem consumeLots_total (sp : ℚ) (lots : List FIFOLot) : ∀ (q : ℚ), 0 ≤ q →
    (∀ l ∈ lots, 0 ≤ l.quantity) →
    lotsTotal (consumeLots sp q lots).2 = lotsTotal lots - min q (lotsTotal lots)
      ∧ ∀ l ∈ (consumeLots sp q lots).2, 0 ≤ l.quantity := by
  induction lots with
  | nil =>
    intro q hq _
    refine ⟨?_, by simp [consumeLots]⟩
    simp [consumeLots, lotsTotal, min_eq_right hq]
  | cons l ls ih =>
    intro q hq hl
    have hlq : 0 ≤ l.quantity := hl l (by simp)
    have hls : ∀ x ∈ ls, 0 ≤ x.quantity := fun x hx => hl x (by simp [hx])
    have hT : 0 ≤ lotsTotal ls := lotsTotal_nonneg ls hls
    by_cases h0 : 0 < q
    · by_cases hle : l.quantity ≤ q
      · have ih' := ih (q - l.quantity) (by linarith) hls
        simp only [consumeLots, if_pos h0, if_pos hle]
        refine ⟨?_, ih'.2⟩
        rw [ih'.1, lotsTotal_cons]
        rcases le_or_lt (q - l.quantity) (lotsTotal ls) with h | h
        · rw [min_eq_left h, min_eq_left (by linarith)]; ring
        · rw [min_eq_right h.le, min_eq_right (by linarith)]; ring
      · push_neg at hle
        simp only [consumeLots, if_pos h0, if_neg (not_le.mpr hle)]
        constructor
        · rw [lotsTotal_cons, lotsTotal_cons,
            min_eq_left (by linarith : q ≤ l.quantity + lotsTotal ls)]
          simp only
          ring
        · intro x hx
          rcases List.mem_cons.mp hx with rfl | h
          · simp; linarith
          · exact hls x h
    · have hq0 : q = 0 := le_antisymm (not_lt.mp h0) hq
      subst hq0
      simp only [consumeLots, if_neg h0]
      refine ⟨?_, hl⟩
      rw [min_eq_left (by rw [lotsTotal_cons]; linarith)]
      ring


theorem applySells_total (sells : List Tx) : ∀ (lots : List FIFOLot),
    (∀ l ∈ lots, 0 ≤ l.quantity) → (∀ s ∈ sells, 0 ≤ s.quantity) →
    lotsTotal (applySells sells lots).2
      = lotsTotal lots - consumedFold (lotsTotal lots) (sells.map Tx.quantity)
      ∧ ∀ l ∈ (applySells sells lots).2, 0 ≤ l.quantity := by
  induction sells with
  | nil => intro lots hlots _; exact ⟨by simp [applySells, consumedFold], hlots⟩
  | cons s rest ih =>
    intro lots hlots hs
    have hsq : 0 ≤ s.quantity := hs s (by simp)
    have hrest : ∀ x ∈ rest, 0 ≤ x.quantity := fun x hx => hs x (by simp [hx])
    have hc := consumeLots_total (sell_price s) lots s.quantity hsq hlots
    have ih' := ih (consumeLots (sell_price s) s.quantity lots).2 hc.2 hrest
    simp only [applySells]
    refine ⟨?_, ih'.2⟩
    rw [ih'.1, hc.1]
    simp only [List.map_cons, consumedFold]
    ring

theorem consumedFold_bounds (qs : List ℚ) : ∀ (A : ℚ), 0 ≤ A → (∀ q ∈ qs, 0 ≤ q) →
    0 ≤ consumedFold A qs ∧ consumedFold A qs ≤ A ∧ consumedFold A qs ≤ qs.sum := by
  induction qs with
  | nil => intro A hA _; simp [consumedFold, hA]
  | cons q qs ih =>
    intro A hA hq
    have h1 : 0 ≤ q := hq q (by simp)
    have h2 : ∀ x ∈ qs, 0 ≤ x := fun x hx => hq x (by simp [hx])
    have hmin1 : min q A ≤ A := min_le_right _ _
    have hmin2 : min q A ≤ q := min_le_left _ _
    have hmin0 : 0 ≤ min q A := le_min h1 hA
    have ih' := ih (A - min q A) (by linarith) h2
    simp only [consumedFold, List.sum_cons]
    refine ⟨by linarith [ih'.1], by linarith [ih'.2.1], by linarith [ih'.1, ih'.2.2]⟩

theorem lotsTotal_mkLots (buys : List Tx) (eur_usd : ℚ) :
    lotsTotal (mkLots buys eur_usd) = buysTotal buys := by
  rw [lotsTotal, mkLots, List.map_map]
  rfl

theorem mkLots_nonneg (buys : List Tx) (eur_usd : ℚ) (hb : ∀ t ∈ buys, 0 ≤ t.quantity) :
    ∀ l ∈ mkLots buys eur_usd, 0 ≤ l.quantity := by
  intro l hl
  rcases List.mem_map.mp hl with ⟨t, ht, rfl⟩
  exact hb t ht

/-- C4: for all buy and sell lists with nonnegative quantities (the data
model guarantees `quantity ≥ 0`), the total quantity remaining after
`compute_fifo` equals the total bought minus the sell quantity actually
consumed (`consumedFold`), is never negative, and the consumed quantity never
exceeds either the total sold or the total bought — the excess of an
over-selling input is silently discarded and the function is total (no
error path exists in the embedding). -/
theorem compute_fifo_quantity_conservation (buys sells : List Tx) (eur_usd : ℚ)
    (hb : ∀ t ∈ buys, 0 ≤ t.quantity) (hs : ∀ t ∈ sells, 0 ≤ t.quantity) :
    lotsTotal (compute_fifo buys sells eur_usd).remaining_lots
      = buysTotal buys - consumedFold (buysTotal buys) (sells.map Tx.quantity)
    ∧ 0 ≤ lotsTotal (compute_fifo buys sells eur_usd).remaining_lots
    ∧ consumedFold (buysTotal buys) (sells.map Tx.quantity) ≤ (sells.map Tx.quantity).sum
    ∧ consumedFold (buysTotal buys) (sells.map Tx.quantity) ≤ buysTotal buys := by
  have hlots := mkLots_nonneg buys eur_usd hb
  have h := applySells_total sells (mkLots buys eur_usd) hlots hs
  have hbt : 0 ≤ buysTotal buys := by
    rw [← lotsTotal_mkLots buys eur_usd]; exact lotsTotal_nonneg _ hlots
  have hq : ∀ q ∈ sells.map Tx.quantity, 0 ≤ q := by
    intro q hq
    rcases List.mem_map.mp hq with ⟨t, ht, rfl⟩
    exact hs t ht
  have hcb := consumedFold_bounds (sells.map Tx.quantity) (buysTotal buys) hbt hq
  have hrem : (compute_fifo buys sells eur_usd).remaining_lots
      = (applySells sells (mkLots buys eur_usd)).2 := rfl
  rw [lotsTotal_mkLots] at h
  rw [hrem]
  exact ⟨h.1, by rw [h.1]; linarith [hcb.2.1], hcb.2.2, hcb.2.1⟩


theorem suffixWithHeadReduced_refl (l : List FIFOLot) : suffixWithHeadReduced l l := by
  cases l with
  | nil => exact Or.inl rfl
  | cons x xs =>
    refine Or.inr ⟨0, 0, x, xs, by simp, le_refl 0, ?_⟩
    cases x
    simp

theorem suffixWithHeadReduced_cons_lift (l : FIFOLot) (ls rem : List FIFOLot)
    (h : suffixWithHeadReduced ls rem) : suffixWithHeadReduced (l :: ls) rem := by
  rcases h with rfl | ⟨k, δ, m, ms, hdrop, hδ, hrem⟩
  · exact Or.inl rfl
  · exact Or.inr ⟨k + 1, δ, m, ms, by simpa using hdrop, hδ, hrem⟩

theorem consumeLots_suffix (sp : ℚ) (lots : List FIFOLot) : ∀ (q : ℚ),
    suffixWithHeadReduced lots (consumeLots sp q lots).2 := by
  induction lots with
  | nil => intro q; exact Or.inl rfl
  | cons l ls ih =>
    intro q
    by_cases h0 : 0 < q
    · by_cases hle : l.quantity ≤ q
      · simp only [consumeLots, if_pos h0, if_pos hle]
        exact suffixWithHeadReduced_cons_lift l ls _ (ih (q - l.quantity))
      · simp only [consumeLots, if_pos h0, if_neg hle]
        exact Or.inr ⟨0, q, l, ls, by simp, le_of_lt h0, rfl⟩
    · simp only [consumeLots, if_neg h0]
      exact suffixWithHeadReduced_refl _

theorem suffixWithHeadReduced_trans (a b c : List FIFOLot)
    (hab : suffixWithHeadReduced a b) (hbc : suffixWithHeadReduced b c) :
    suffixWithHeadReduced a c := by
  rcases hab with rfl | ⟨k, δ, l, ls, hdrop, hδ, rfl⟩
  · rcases hbc with rfl | ⟨k', δ', m, ms, hd, _, _⟩
    · exact Or.inl rfl
    · simp at hd
  · rcases hbc with rfl | ⟨k', δ', m, ms, hd, hδ', rfl⟩
    · exact Or.inl rfl
    · cases k' with
      | zero =>
        simp only [List.drop_zero, List.cons.injEq] at hd
        obtain ⟨rfl, rfl⟩ := hd
        refine Or.inr ⟨k, δ + δ', l, ls, hdrop, by linarith, ?_⟩
        have harith : l.quantity - δ - δ' = l.quantity - (δ + δ') := by ring
        rw [harith]
      | succ j =>
        have hls : List.drop (k + 1) a = ls := by
          rw [← List.drop_drop]
          simp [hdrop]
        have hdj : List.drop (k + 1 + j) a = m :: ms := by
          rw [← List.drop_drop, hls]
          simpa using hd
        exact Or.inr ⟨k + 1 + j, δ', m, ms, hdj, hδ', rfl⟩

theorem applySells_suffix (sells : List Tx) : ∀ (lots : List FIFOLot),
    suffixWithHeadReduced lots (applySells sells lots).2 := by
  induction sells with
  | nil => intro lots; exact suffixWithHeadReduced_refl lots
  | cons s rest ih =>
    intro lots
    simp only [applySells]
    exact suffixWithHeadReduced_trans _ _ _
      (consumeLots_suffix (sell_price s) lots s.quantity) (ih _)

/-- C10 (implicit): for every input, the remaining lots of `compute_fifo`
are a contiguous suffix of the lot queue built from the buys in input order,
in which every lot keeps its original `unit_cost` and `unit_cost_eur` and
only the first remaining lot's quantity may have been reduced. -/
theorem compute_fifo_remaining_suffix (buys sells : List Tx) (eur_usd : ℚ) :
    suffixWithHeadReduced (mkLots buys eur_usd)
      (compute_fifo buys sells eur_usd).remaining_lots := by
  have : (compute_fifo buys sells eur_usd).remaining_lots
      = (applySells sells (mkLots buys eur_usd)).2 := rfl
  rw [this]
  exact applySells_suffix sells (mkLots buys eur_usd)


/-- C3: `compute_fifo` consumes buy lots strictly oldest-first in input order.
Scenario S1: buys [(1.0, $30k), (1.0, $50k)], sells [(1.0, $40k)] yield
realized P&L 10000, remaining lots [{1.0, $50k}], cost basis 50000.
Scenario S2: buys [(2.0, $40k)], sells [(1.0, $50k)] yield realized 10000,
remaining [{1.0, $40k}] (head lot reduced, unit cost unchanged), basis 40000. -/
theorem compute_fifo_scenarios :
    ((compute_fifo
        [⟨"buy", 1, some 30000, none, none, 0⟩, ⟨"buy", 1, some 50000, none, none, 0⟩]
        [⟨"sell", 1, some 40000, none, none, 0⟩] (27/25)).realized_pnl = 10000
      ∧ ((compute_fifo
          [⟨"buy", 1, some 30000, none, none, 0⟩, ⟨"buy", 1, some 50000, none, none, 0⟩]
          [⟨"sell", 1, some 40000, none, none, 0⟩] (27/25)).remaining_lots.map
            fun l => (l.quantity, l.unit_cost)) = [(1, 50000)]
      ∧ (compute_fifo
          [⟨"buy", 1, some 30000, none, none, 0⟩, ⟨"buy", 1, some 50000, none, none, 0⟩]
          [⟨"sell", 1, some 40000, none, none, 0⟩] (27/25)).cost_basis = 50000)
    ∧ ((compute_fifo [⟨"buy", 2, some 40000, none, none, 0⟩]
        [⟨"sell", 1, some 50000, none, none, 0⟩] (27/25)).realized_pnl = 10000
      ∧ ((compute_fifo [⟨"buy", 2, some 40000, none, none, 0⟩]
          [⟨"sell", 1, some 50000, none, none, 0⟩] (27/25)).remaining_lots.map
            fun l => (l.quantity, l.unit_cost)) = [(1, 40000)]
      ∧ (compute_fifo [⟨"buy", 2, some 40000, none, none, 0⟩]
          [⟨"sell", 1, some 50000, none, none, 0⟩] (27/25)).cost_basis = 40000) := by
  refine ⟨⟨?_, ?_, ?_⟩, ?_, ?_, ?_⟩ <;>
    norm_num [compute_fifo, applySells, consumeLots, mkLots, sell_price, usd_unit_cost,
      eur_unit_cost, quantize8, roundHalfUpZ]

theorem vwap_foldl (txs : List Tx) : ∀ (a b : ℚ),
    txs.foldl vwapStep (a, b) = (a + vwapNum txs, b + vwapDen txs) := by
  induction txs with
  | nil => intro a b; simp [vwapNum, vwapDen]
  | cons t ts ih =>
    intro a b
    by_cases hc : usd_unit_cost t = 0
    · simp only [List.foldl_cons, vwapStep, if_pos hc, ih]
      simp [vwapNum, vwapDen, List.filter_cons, hc]
    · simp only [List.foldl_cons, vwapStep, if_neg hc, ih]
      simp only [vwapNum, vwapDen, List.filter_cons]
      rw [if_pos (by simp [hc])]
      simp only [List.map_cons, List.sum_cons, Prod.mk.injEq]
      exact ⟨by ring, by ring⟩

/-- C7 (amended): `compute_vwap` equals the half-up 8-fractional-digit
quantization of `Σ (usd_unit_cost_i × qty_i) / Σ qty_i` over the transactions
with nonzero USD unit cost (zero when the denominator is zero), and for a
single transaction with nonzero quantity and a nonzero price representable at
8 fractional digits (no `total_value_usd`) it returns exactly that price. -/
theorem compute_vwap_spec :
    (∀ txs : List Tx, compute_vwap txs
        = if vwapDen txs = 0 then 0 else quantize8 (vwapNum txs / vwapDen txs))
    ∧ ∀ q p : ℚ, q ≠ 0 → p ≠ 0 → quantize8 p = p →
        compute_vwap [⟨"buy", q, some p, none, none, 0⟩] = p := by
  constructor
  · intro txs
    rw [compute_vwap]
    simp only [vwap_foldl txs 0 0, zero_add]
  · intro q p hq hp hqp
    have hcost : usd_unit_cost ⟨"buy", q, some p, none, none, 0⟩ = p := rfl
    rw [compute_vwap]
    simp only [List.foldl_cons, List.foldl_nil, vwapStep, hcost, if_neg hp]
    simp only [zero_add]
    rw [if_neg hq, mul_div_cancel_right₀ _ hq, hqp]



theorem ddUpdateMax_worst (st : DDState) (s : Snap) : (ddUpdateMax st s).worst = st.worst := by
  rw [ddUpdateMax]; split <;> rfl

theorem ddUpdateMax_running_max (st : DDState) (s : Snap) :
    (ddUpdateMax st s).running_max = max st.running_max s.total_value_usd := by
  rw [ddUpdateMax]
  split_ifs with h
  · exact (max_eq_right (le_of_lt h)).symm
  · exact (max_eq_left (not_lt.mp h)).symm

theorem ddUpdateWorst_worst_nonpos (st1 : DDState) (s : Snap) (h : st1.worst ≤ 0) :
    (ddUpdateWorst st1 s).worst ≤ 0 := by
  simp only [ddUpdateWorst]
  split_ifs with h1 h2
  · exact le_of_lt (lt_of_lt_of_le h2 h)
  · exact h
  · exact h

theorem ddStep_worst_nonpos (st : DDState) (s : Snap) (h : st.worst ≤ 0) :
    (ddStep st s).worst ≤ 0 :=
  ddUpdateWorst_worst_nonpos _ _ ((ddUpdateMax_worst st s).symm ▸ h)

theorem foldl_ddStep_worst_nonpos (l : List Snap) : ∀ (st : DDState), st.worst ≤ 0 →
    (l.foldl ddStep st).worst ≤ 0 := by
  induction l with
  | nil => intro st h; exact h
  | cons s rest ih => intro st h; exact ih _ (ddStep_worst_nonpos st s h)

theorem roundHalfUpZ_nonpos (x : ℚ) (h : x ≤ 0) : roundHalfUpZ x ≤ 0 := by
  rw [roundHalfUpZ]
  split_ifs with h0
  · have : x = 0 := le_antisymm h h0
    subst this
    norm_num
  · simp only [neg_nonpos]
    rw [Int.le_floor]
    push_neg at h0
    push_cast
    linarith

theorem quantize2_nonpos (x : ℚ) (h : x ≤ 0) : quantize2 x ≤ 0 := by
  rw [quantize2]
  have h1 : roundHalfUpZ (x * 100) ≤ 0 := roundHalfUpZ_nonpos _ (by linarith)
  have h2 : ((roundHalfUpZ (x * 100) : ℤ) : ℚ) ≤ 0 := by exact_mod_cast h1
  linarith [div_nonpos_of_nonpos_of_nonneg h2 (by norm_num : (0:ℚ) ≤ 100)]

theorem ddStep_monotone_inv (st : DDState) (s : Snap) (v : ℚ)
    (hrm : st.running_max = max 0 v) (hw : st.worst = 0) (hv : v ≤ s.total_value_usd) :
    (ddStep st s).running_max = max 0 s.total_value_usd ∧ (ddStep st s).worst = 0 := by
  have hrm1 : (ddUpdateMax st s).running_max = max 0 s.total_value_usd := by
    rw [ddUpdateMax_running_max, hrm, max_assoc, max_eq_right hv]
  have hw1 : (ddUpdateMax st s).worst = 0 := (ddUpdateMax_worst st s).trans hw
  rw [ddStep]
  simp only [ddUpdateWorst]
  split_ifs with h1 h2
  · -- 0 < running max and dd < 0: impossible on a non-decreasing series
    exfalso
    rw [hrm1] at h1
    have hspos : 0 < s.total_value_usd := by
      rcases max_cases 0 s.total_value_usd with ⟨he, _⟩ | ⟨he, hle⟩
      · rw [he] at h1; exact absurd h1 (lt_irrefl 0)
      · rw [he] at h1; exact h1
    rw [hrm1, hw1, max_eq_right (le_of_lt hspos)] at h2
    rw [div_lt_iff₀ hspos] at h2
    simp at h2
  · exact ⟨hrm1, hw1⟩
  · exact ⟨hrm1, hw1⟩

theorem dd_chain (l : List Snap) : ∀ (st : DDState) (v : ℚ),
    st.running_max = max 0 v → st.worst = 0 →
    nonDecreasing (v :: l.map Snap.total_value_usd) →
    (l.foldl ddStep st).worst = 0 := by
  induction l with
  | nil => intro st v _ hw _; exact hw
  | cons s rest ih =>
    intro st v hrm hw hnd
    have hnd' : v ≤ s.total_value_usd
        ∧ nonDecreasing (s.total_value_usd :: rest.map Snap.total_value_usd) := by
      simpa [nonDecreasing] using hnd
    have hstep := ddStep_monotone_inv st s v hrm hw hnd'.1
    simp only [List.foldl_cons]
    exact ih (ddStep st s) s.total_value_usd hstep.1 hstep.2 hnd'.2


/-- C6 (amended): `compute_drawdown` always returns a non-positive
`max_drawdown_pct`; the result is zero whenever the snapshot value series is
monotonically non-decreasing (the converse fails: a drawdown smaller than half
the 2-decimal quantum also rounds to zero); the empty input yields zero with
null peak and trough dates. -/
theorem compute_drawdown_spec :
    (∀ snaps : List Snap, (compute_drawdown snaps).max_drawdown_pct ≤ 0)
    ∧ (∀ snaps : List Snap, nonDecreasing (snaps.map Snap.total_value_usd) →
        (compute_drawdown snaps).max_drawdown_pct = 0)
    ∧ compute_drawdown [] = ⟨0, none, none, 0, 0⟩ := by
  refine ⟨?_, ?_, rfl⟩
  · intro snaps
    cases snaps with
    | nil => simp [compute_drawdown]
    | cons s0 rest =>
      simp only [compute_drawdown]
      apply quantize2_nonpos
      have h := foldl_ddStep_worst_nonpos (s0 :: rest) ⟨0, s0, 0, s0, s0⟩ (le_refl 0)
      nlinarith [h]
  · intro snaps hnd
    cases snaps with
    | nil => simp [compute_drawdown]
    | cons s0 rest =>
      simp only [compute_drawdown]
      have hchain : ((s0 :: rest).foldl ddStep ⟨0, s0, 0, s0, s0⟩).worst = 0 := by
        apply dd_chain (s0 :: rest) ⟨0, s0, 0, s0, s0⟩ (min 0 s0.total_value_usd)
        · simp only
          rw [max_eq_left (min_le_left 0 s0.total_value_usd)]
        · rfl
        · simp only [List.map_cons]
          have : nonDecreasing (min 0 s0.total_value_usd :: s0.total_value_usd ::
              rest.map Snap.total_value_usd) = (min 0 s0.total_value_usd ≤ s0.total_value_usd
              ∧ nonDecreasing (s0.total_value_usd :: rest.map Snap.total_value_usd)) := by
            simp [nonDecreasing]
          rw [this]
          refine ⟨min_le_right 0 _, ?_⟩
          simpa using hnd
      rw [hchain]
      norm_num [quantize2, roundHalfUpZ]

/-- C6 counterexample: the series 1000000, 999999 is strictly decreasing,
yet its worst drawdown (−0.0001 %) is quantized half-up at two fractional
digits to 0 — refuting the claim that `max_drawdown_pct` is zero only if the
series is monotonically non-decreasing. -/
theorem compute_drawdown_claim_counterexample :
    (compute_drawdown [⟨1, 1000000⟩, ⟨2, 999999⟩]).max_drawdown_pct = 0
    ∧ ¬ nonDecreasing (([⟨1, 1000000⟩, ⟨2, 999999⟩] : List Snap).map Snap.total_value_usd) := by
  constructor
  · norm_num [compute_drawdown, ddStep, ddUpdateMax, ddUpdateWorst, quantize2, roundHalfUpZ]
  · norm_num [nonDecreasing]

/-- C6 witness: the monotone series 10000, 12000, 15000 satisfies the
non-decreasing hypothesis and `compute_drawdown` returns zero on it. -/
theorem compute_drawdown_spec_witness :
    nonDecreasing (([⟨1, 10000⟩, ⟨2, 12000⟩, ⟨3, 15000⟩] : List Snap).map Snap.total_value_usd)
    ∧ (compute_drawdown [⟨1, 10000⟩, ⟨2, 12000⟩, ⟨3, 15000⟩]).max_drawdown_pct = 0 :=
  ⟨by norm_num [nonDecreasing],
    compute_drawdown_spec.2.1 [⟨1, 10000⟩, ⟨2, 12000⟩, ⟨3, 15000⟩]
      (by norm_num [nonDecreasing])⟩


theorem foldl_min_mem (qs : List ℚ) : ∀ (q : ℚ), qs.foldl min q ∈ q :: qs := by
  induction qs with
  | nil => intro q; simp
  | cons x xs ih =>
    intro q
    simp only [List.foldl_cons]
    rcases List.mem_cons.mp (ih (min q x)) with h | h
    · rcases min_cases q x with ⟨he, _⟩ | ⟨he, _⟩
      · rw [h, he]; simp
      · rw [h, he]; simp
    · simp [h]

theorem foldl_min_le (qs : List ℚ) : ∀ (q : ℚ), ∀ x ∈ q :: qs, qs.foldl min q ≤ x := by
  induction qs with
  | nil =>
    intro q x hx
    simp at hx
    simp [hx]
  | cons y ys ih =>
    intro q x hx
    simp only [List.foldl_cons]
    have hhead : List.foldl min (min q y) ys ≤ min q y := ih (min q y) (min q y) (by simp)
    rcases List.mem_cons.mp hx with h1 | hx'
    · subst h1; exact le_trans hhead (min_le_left _ _)
    · rcases List.mem_cons.mp hx' with h2 | hx''
      · subst h2; exact le_trans hhead (min_le_right _ _)
      · exact ih (min q y) x (by simp [hx''])

theorem foldl_max_mem (qs : List ℚ) : ∀ (q : ℚ), qs.foldl max q ∈ q :: qs := by
  induction qs with
  | nil => intro q; simp
  | cons x xs ih =>
    intro q
    simp only [List.foldl_cons]
    rcases List.mem_cons.mp (ih (max q x)) with h | h
    · rcases max_cases q x with ⟨he, _⟩ | ⟨he, _⟩
      · rw [h, he]; simp
      · rw [h, he]; simp
    · simp [h]

theorem foldl_max_le (qs : List ℚ) : ∀ (q : ℚ), ∀ x ∈ q :: qs, x ≤ qs.foldl max q := by
  induction qs with
  | nil =>
    intro q x hx
    simp at hx
    simp [hx]
  | cons y ys ih =>
    intro q x hx
    simp only [List.foldl_cons]
    have hhead : max q y ≤ List.foldl max (max q y) ys := ih (max q y) (max q y) (by simp)
    rcases List.mem_cons.mp hx with h1 | hx'
    · subst h1; exact le_trans (le_max_left _ _) hhead
    · rcases List.mem_cons.mp hx' with h2 | hx''
      · subst h2; exact le_trans (le_max_right _ _) hhead
      · exact ih (max q y) x (by simp [hx''])

/-- C9 (amended): the per-buy timing percentile is computed from the closes
of the up-to-30 days preceding the buy date (missing days skipped, `none`
when there are none) as `(buy_price − min) / (max − min) × 100` clamped to
[0, 100] and quantized to an integer (half-even); it is 50 when max = min.
The fold-min/fold-max used by the code are proved to be the minimum and
maximum of the prior closes. -/
theorem timing_percentile_spec (d : ℤ) (p : ℚ) (m : List (ℤ × ℚ)) :
    (priorPrices m d = [] → timing_percentile d p m = none)
    ∧ ∀ q qs, priorPrices m d = q :: qs →
        (qs.foldl min q ∈ q :: qs ∧ ∀ x ∈ q :: qs, qs.foldl min q ≤ x)
        ∧ (qs.foldl max q ∈ q :: qs ∧ ∀ x ∈ q :: qs, x ≤ qs.foldl max q)
        ∧ (qs.foldl max q = qs.foldl min q → timing_percentile d p m = some 50)
        ∧ (qs.foldl max q ≠ qs.foldl min q →
            timing_percentile d p m
              = some (quantizeInt (max 0 (min 100
                  ((p - qs.foldl min q) / (qs.foldl max q - qs.foldl min q) * 100))))) := by
  constructor
  · intro h
    rw [timing_percentile, h]
  · intro q qs h
    refine ⟨⟨foldl_min_mem qs q, foldl_min_le qs q⟩, ⟨foldl_max_mem qs q, foldl_max_le qs q⟩,
      ?_, ?_⟩
    · intro he
      rw [timing_percentile, h]
      simp only [if_pos he]
    · intro hne
      rw [timing_percentile, h]
      simp only [if_neg hne]


theorem range_thirty : List.range 30
    = [0, 1, 2, 3, 4, 5, 6, 7, 8, 9, 10, 11, 12, 13, 14, 15, 16, 17, 18, 19,
       20, 21, 22, 23, 24, 25, 26, 27, 28, 29] := by rfl

theorem priorPrices_example :
    priorPrices [((99:ℤ), (25000:ℚ)), (98, 45000)] 100 = [25000, 45000] := by
  simp [priorPrices, range_thirty, lookupDay]

/-- C9 counterexample: with prior closes 25000 and 45000 and a buy at
27500, the clamped formula value is 12.5, but `_timing_percentile` quantizes
to the integer 12 — refuting the claim that the returned percentile equals
the clamped formula value. -/
theorem timing_percentile_counterexample :
    timing_percentile 100 27500 [(99, 25000), (98, 45000)] = some 12
    ∧ max 0 (min 100 ((27500 - 25000) / (45000 - 25000) * 100)) = (25/2 : ℚ)
    ∧ (12 : ℚ) ≠ 25/2 := by
  refine ⟨?_, by norm_num, by norm_num⟩
  rw [timing_percentile, priorPrices_example]
  norm_num [quantizeInt, roundHalfEvenZ, min_def, max_def]

/-- C9 witness (scenario S8): prior closes range 25000–45000 and a buy at
30000 give percentile 25. -/
theorem timing_percentile_spec_witness :
    priorPrices [((99:ℤ), (25000:ℚ)), (98, 45000)] 100 = [25000, 45000]
    ∧ timing_percentile 100 30000 [(99, 25000), (98, 45000)] = some 25 := by
  refine ⟨priorPrices_example, ?_⟩
  have h := (timing_percentile_spec 100 30000 [(99, 25000), (98, 45000)]).2
    25000 [45000] priorPrices_example
  rw [h.2.2.2 (by norm_num [min_def, max_def])]
  norm_num [quantizeInt, roundHalfEvenZ, min_def, max_def]


theorem enrichRowUSD_of_some (t : Tx) (h : t.total_value_usd ≠ none) :
    enrichRowUSD t = t := by
  rw [enrichRowUSD]
  cases ht : t.total_value_usd with
  | none => exact absurd ht h
  | some v => rfl

theorem enrichRowEUR_of_some (ph : List PhRow) (t : Tx) (h : t.total_value_usd ≠ none) :
    enrichRowEUR ph t = t := by
  rw [enrichRowEUR]
  cases ht : t.total_value_usd with
  | none => exact absurd ht h
  | some v => rfl

theorem enrichRowUSD_cases (t : Tx) :
    enrichRowUSD t = t ∨ (enrichRowUSD t).total_value_usd ≠ none := by
  rw [enrichRowUSD]
  cases ht : t.total_value_usd with
  | some v => exact Or.inl rfl
  | none =>
    cases hq : t.quote_asset with
    | none => exact Or.inl rfl
    | some qa =>
      cases hp : t.price with
      | none => exact Or.inl rfl
      | some p =>
        by_cases hm : qa ∈ ["USDT", "BUSD", "FDUSD", "USD"]
        · exact Or.inr (by simp [hm])
        · exact Or.inl (by simp [hm])

theorem enrichRowEUR_cases (ph : List PhRow) (t : Tx) :
    enrichRowEUR ph t = t ∨ (enrichRowEUR ph t).total_value_usd ≠ none := by
  rw [enrichRowEUR]
  cases ht : t.total_value_usd with
  | some v => exact Or.inl rfl
  | none =>
    cases hq : t.quote_asset with
    | none => exact Or.inl rfl
    | some qa =>
      cases hp : t.price with
      | none => exact Or.inl rfl
      | some p =>
        by_cases hm : qa = "EUR"
        · cases hc : eurCloseOn ph t.executedDay with
          | none => exact Or.inl (by simp [hm, hc])
          | some r => exact Or.inr (by simp [hm, hc])
        · exact Or.inl (by simp [hm])

theorem enrichRow_of_some (ph : List PhRow) (t : Tx) (h : t.total_value_usd ≠ none) :
    enrichRow ph t = t := by
  rw [enrichRow, enrichRowUSD_of_some t h, enrichRowEUR_of_some ph t h]

theorem enrichRow_idem (ph : List PhRow) (t : Tx) :
    enrichRow ph (enrichRow ph t) = enrichRow ph t := by
  rcases enrichRowUSD_cases t with hu | hu
  · rcases enrichRowEUR_cases ph t with he | he
    · have h1 : enrichRow ph t = t := by rw [enrichRow, hu, he]
      rw [h1]
      exact h1
    · have h1 : enrichRow ph t = enrichRowEUR ph t := by rw [enrichRow, hu]
      rw [h1, enrichRow_of_some ph _ he]
  · have h1 : enrichRow ph t = enrichRowUSD t := by
      rw [enrichRow, enrichRowEUR_of_some ph _ hu]
    rw [h1, enrichRow_of_some ph _ hu]

theorem enrich_eq_map (ph : List PhRow) (txs : List Tx) :
    enrich_trade_usd_values ph txs = txs.map (enrichRow ph) := by
  rw [enrich_trade_usd_values, List.map_map]
  rfl

/-- C5: the `total_value_usd` enrichment sets, for every transaction row
with `quote_asset = EUR`, non-null price and null `total_value_usd` that joins
to a same-day EURUSDT daily close, `total_value_usd =
round(price × quantity × close, 8)`; it touches only rows whose
`total_value_usd` is null, re-running it changes nothing, and the concrete
S7 instance (price 50000, qty 0.1, close 1.10) yields 5500. -/
theorem enrich_trade_usd_values_spec :
    (∀ (ph : List PhRow) (t : Tx) (p : ℚ) (r : PhRow),
        t.quote_asset = some "EUR" → t.total_value_usd = none → t.price = some p →
        eurCloseOn ph t.executedDay = some r →
        enrichRow ph t = { t with total_value_usd := some (quantize8 (p * t.quantity * r.close)) })
    ∧ (∀ (ph : List PhRow) (t : Tx), t.total_value_usd ≠ none → enrichRow ph t = t)
    ∧ (∀ (ph : List PhRow) (txs : List Tx),
        enrich_trade_usd_values ph txs = txs.map (enrichRow ph))
    ∧ (∀ (ph : List PhRow) (txs : List Tx),
        enrich_trade_usd_values ph (enrich_trade_usd_values ph txs)
          = enrich_trade_usd_values ph txs)
    ∧ enrich_trade_usd_values [⟨"EURUSDT", "1d", 19797, 11/10⟩]
        [⟨"buy", 1/10, some 50000, none, some "EUR", 19797⟩]
        = [⟨"buy", 1/10, some 50000, some 5500, some "EUR", 19797⟩] := by
  refine ⟨?_, enrichRow_of_some, enrich_eq_map, ?_, ?_⟩
  · intro ph t p r hq ht hp hc
    have husd : enrichRowUSD t = t := by
      rw [enrichRowUSD, ht, hq, hp]
      simp
    rw [enrichRow, husd, enrichRowEUR, ht, hq, hp]
    simp [hc]
  · intro ph txs
    rw [enrich_eq_map, enrich_eq_map, List.map_map]
    apply List.map_congr_left
    intro t _
    exact enrichRow_idem ph t
  · rw [enrich_eq_map]
    simp only [List.map_cons, List.map_nil]
    have hc : eurCloseOn [⟨"EURUSDT", "1d", 19797, 11/10⟩] (19797 : ℤ)
        = some ⟨"EURUSDT", "1d", 19797, 11/10⟩ := by
      rw [eurCloseOn]
      simp [List.find?]
    rw [enrichRow]
    have husd : enrichRowUSD (⟨"buy", 1/10, some 50000, none, some "EUR", 19797⟩ : Tx)
        = ⟨"buy", 1/10, some 50000, none, some "EUR", 19797⟩ := by
      rw [enrichRowUSD]
      simp
    rw [husd, enrichRowEUR]
    simp only [hc]
    norm_num [quantize8, roundHalfUpZ]


theorem pySet_fresh (d : List (String × String)) (k v : String)
    (h : ∀ p ∈ d, p.1 ≠ k) : pySet d k v = d ++ [(k, v)] := by
  rw [pySet, if_neg]
  simp only [List.any_eq_true, beq_iff_eq, not_exists, not_and]
  exact h

theorem joinAmp_append_single (l : List String) (x : String) (hl : l ≠ []) :
    joinAmp (l ++ [x]) = joinAmp l ++ "&" ++ x := by
  induction l with
  | nil => exact absurd rfl hl
  | cons a rest ih =>
    cases rest with
    | nil => rfl
    | cons b t =>
      have ih' := ih (by simp)
      calc joinAmp ((a :: b :: t) ++ [x])
          = a ++ "&" ++ joinAmp ((b :: t) ++ [x]) := rfl
        _ = a ++ "&" ++ (joinAmp (b :: t) ++ "&" ++ x) := by rw [ih']
        _ = joinAmp (a :: b :: t) ++ "&" ++ x := by
            show _ = a ++ "&" ++ joinAmp (b :: t) ++ "&" ++ x
            simp [String.append_assoc]

/-- C8: the signing helper returns a fresh dict equal to the caller's
parameters extended with `timestamp`, `recvWindow = 5000` and a `signature`
equal to the HMAC-SHA256 of the urlencoded serialization of all parameters
except the signature itself — exactly the serialization sent on the wire;
the caller's entries are preserved unchanged (for caller dicts that do not
already use the three reserved keys, which no call site does). -/
theorem sign_spec (hmacSha256 : String → String → String) (api_secret : String) (nowMs : ℕ)
    (params : List (String × String))
    (hts : ∀ p ∈ params, p.1 ≠ "timestamp")
    (hrw : ∀ p ∈ params, p.1 ≠ "recvWindow")
    (hsig : ∀ p ∈ params, p.1 ≠ "signature") :
    sign hmacSha256 api_secret nowMs params
      = params ++ [("timestamp", toString nowMs), ("recvWindow", "5000"),
          ("signature", hmacSha256 api_secret (urlencode
            (params ++ [("timestamp", toString nowMs), ("recvWindow", "5000")])))]
    ∧ withoutSignature (sign hmacSha256 api_secret nowMs params)
        = params ++ [("timestamp", toString nowMs), ("recvWindow", "5000")]
    ∧ lookupParam (sign hmacSha256 api_secret nowMs params) "signature"
        = some (hmacSha256 api_secret (urlencode
            (withoutSignature (sign hmacSha256 api_secret nowMs params)))) := by
  have h1 : pySet params "timestamp" (toString nowMs)
      = params ++ [("timestamp", toString nowMs)] := pySet_fresh _ _ _ hts
  have h2 : pySet (params ++ [("timestamp", toString nowMs)]) "recvWindow" "5000"
      = params ++ [("timestamp", toString nowMs), ("recvWindow", "5000")] := by
    rw [pySet_fresh]
    · simp
    · intro p hp
      rcases List.mem_append.mp hp with h | h
      · exact hrw p h
      · simp at h
        rw [h]
        simp
  have hfresh3 : ∀ p ∈ params ++ [("timestamp", toString nowMs), ("recvWindow", "5000")],
      p.1 ≠ "signature" := by
    intro p hp
    rcases List.mem_append.mp hp with h | h
    · exact hsig p h
    · rcases List.mem_cons.mp h with h' | h'
      · rw [h']; simp
      · simp at h'
        rw [h']
        simp
  have hmain : sign hmacSha256 api_secret nowMs params
      = params ++ [("timestamp", toString nowMs), ("recvWindow", "5000"),
          ("signature", hmacSha256 api_secret (urlencode
            (params ++ [("timestamp", toString nowMs), ("recvWindow", "5000")])))] := by
    rw [sign]
    simp only [h1, h2]
    rw [pySet_fresh _ _ _ hfresh3]
    simp
  have hnosig : withoutSignature (sign hmacSha256 api_secret nowMs params)
      = params ++ [("timestamp", toString nowMs), ("recvWindow", "5000")] := by
    rw [hmain, withoutSignature, List.filter_append]
    have hp : params.filter (fun p => p.1 != "signature") = params :=
      List.filter_eq_self.mpr fun p hp => by simpa using hsig p hp
    rw [hp]
    simp
  refine ⟨hmain, hnosig, ?_⟩
  rw [hnosig, hmain, lookupParam]
  rw [List.find?_append]
  have hnone : params.find? (fun p => p.1 == "signature") = none :=
    List.find?_eq_none.mpr fun p hp => by simpa using hsig p hp
  rw [hnone]
  simp


/-- C1: evaluation of the sync-orchestrator model at a run whose `trades`
step raised (captured by `_run_step`) while every other step succeeded: the
error record is accumulated in `SyncStats.errors`, yet the final
`Account.sync_status` is written as `idle`, not `error` — the claim's
"status = error iff any step produced an error record" does not hold on the
code. -/
theorem sync_all_step_error_keeps_idle :
    sync_all [("balances", .ok), ("prices", .ok),
        ("trades", .err "Binance error -1003: Too much request weight used (HTTP 429)"),
        ("deposits", .ok), ("withdrawals", .ok), ("fiat_deposits", .ok),
        ("fiat_withdrawals", .ok), ("enrich_usd", .ok)]
      = ⟨"idle", ["trades: Binance error -1003: Too much request weight used (HTTP 429)"]⟩
    ∧ (sync_all [("balances", .ok), ("prices", .ok),
        ("trades", .err "Binance error -1003: Too much request weight used (HTTP 429)"),
        ("deposits", .ok), ("withdrawals", .ok), ("fiat_deposits", .ok),
        ("fiat_withdrawals", .ok), ("enrich_usd", .ok)]).errors ≠ []
    ∧ (sync_all [("balances", .ok), ("prices", .ok),
        ("trades", .err "Binance error -1003: Too much request weight used (HTTP 429)"),
        ("deposits", .ok), ("withdrawals", .ok), ("fiat_deposits", .ok),
        ("fiat_withdrawals", .ok), ("enrich_usd", .ok)]).sync_status ≠ "error" := by
  refine ⟨by decide, by decide, by decide⟩

/-- C2: evaluation of `_get_last_trade_id` at a store holding trades with
ids "999" and "1000" for the pair: SQL `MAX` over the VARCHAR column picks
the lexicographic maximum "999", so the incremental sync starts at
`fromId = 1000`, while the claim's numeric `max(known_id) + 1` is 1001. -/
theorem get_last_trade_id_string_max :
    get_last_trade_id
        [⟨"acct", "999", "buy", "BTCUSDT"⟩, ⟨"acct", "1000", "buy", "BTCUSDT"⟩]
        "acct" "BTCUSDT" = some 1000
    ∧ numericLastTradeIdSpec
        [⟨"acct", "999", "buy", "BTCUSDT"⟩, ⟨"acct", "1000", "buy", "BTCUSDT"⟩]
        "acct" "BTCUSDT" = some 1001
    ∧ (some (1000 : ℤ) ≠ some 1001) := by
  refine ⟨by decide, by decide, by decide⟩

/-- C4 witness: an over-selling input (buy 0.5, sell 1.0) satisfies the
nonnegativity hypotheses; the conservation, nonnegativity and
excess-discarding conclusions follow from the theorem. -/
theorem compute_fifo_quantity_conservation_witness :
    (∀ t ∈ ([⟨"buy", 1/2, some 50000, none, none, 0⟩] : List Tx), 0 ≤ t.quantity)
    ∧ (∀ t ∈ ([⟨"sell", 1, some 60000, none, none, 0⟩] : List Tx), 0 ≤ t.quantity)
    ∧ (lotsTotal (compute_fifo [⟨"buy", 1/2, some 50000, none, none, 0⟩]
          [⟨"sell", 1, some 60000, none, none, 0⟩] (27/25)).remaining_lots
        = buysTotal [⟨"buy", 1/2, some 50000, none, none, 0⟩]
          - consumedFold (buysTotal [⟨"buy", 1/2, some 50000, none, none, 0⟩])
            (([⟨"sell", 1, some 60000, none, none, 0⟩] : List Tx).map Tx.quantity)
      ∧ 0 ≤ lotsTotal (compute_fifo [⟨"buy", 1/2, some 50000, none, none, 0⟩]
          [⟨"sell", 1, some 60000, none, none, 0⟩] (27/25)).remaining_lots
      ∧ consumedFold (buysTotal [⟨"buy", 1/2, some 50000, none, none, 0⟩])
          (([⟨"sell", 1, some 60000, none, none, 0⟩] : List Tx).map Tx.quantity)
          ≤ (([⟨"sell", 1, some 60000, none, none, 0⟩] : List Tx).map Tx.quantity).sum
      ∧ consumedFold (buysTotal [⟨"buy", 1/2, some 50000, none, none, 0⟩])
          (([⟨"sell", 1, some 60000, none, none, 0⟩] : List Tx).map Tx.quantity)
          ≤ buysTotal [⟨"buy", 1/2, some 50000, none, none, 0⟩]) :=
  ⟨by norm_num, by norm_num,
    compute_fifo_quantity_conservation _ _ _ (by norm_num) (by norm_num)⟩

/-- C5 witness: a row whose `total_value_usd` is already set is left
untouched by the enrichment row function. -/
theorem enrich_trade_usd_values_spec_witness :
    ((some (5500 : ℚ) : Option ℚ) ≠ none)
    ∧ enrichRow [] ⟨"buy", 1/10, some 50000, some 5500, some "EUR", 19797⟩
      = ⟨"buy", 1/10, some 50000, some 5500, some "EUR", 19797⟩ :=
  ⟨by simp, enrich_trade_usd_values_spec.2.1 []
    ⟨"buy", 1/10, some 50000, some 5500, some "EUR", 19797⟩ (by simp)⟩

/-- C7 counterexample: a single buy of quantity 1 at price 10⁻⁹ (below the
8-fractional-digit quantum) makes `compute_vwap` return 0, not the price —
refuting the claim that a single-transaction VWAP returns exactly `p` for
any nonzero `p`. -/
theorem compute_vwap_claim_counterexample :
    compute_vwap [⟨"buy", 1, some (1/1000000000), none, none, 0⟩] = 0
    ∧ ((1 : ℚ)/1000000000 ≠ 0) := by
  refine ⟨?_, by norm_num⟩
  norm_num [compute_vwap, vwapStep, usd_unit_cost, quantize8, roundHalfUpZ]

/-- C7 witness: quantity 3 at price 50000 (8-digit representable) returns
exactly 50000. -/
theorem compute_vwap_spec_witness :
    ((3 : ℚ) ≠ 0 ∧ (50000 : ℚ) ≠ 0 ∧ quantize8 50000 = 50000)
    ∧ compute_vwap [⟨"buy", 3, some 50000, none, none, 0⟩] = 50000 :=
  ⟨⟨by norm_num, by norm_num, by norm_num [quantize8, roundHalfUpZ]⟩,
    compute_vwap_spec.2 3 50000 (by norm_num) (by norm_num)
      (by norm_num [quantize8, roundHalfUpZ])⟩

/-- C8 witness: concrete caller parameters (symbol, limit) with a concrete
HMAC function, secret and timestamp produce exactly the extended dict with
the signature over the serialization without the signature entry. -/
theorem sign_spec_witness :
    ((∀ p ∈ ([("symbol", "BTCUSDT"), ("limit", "1000")] : List (String × String)),
        p.1 ≠ "timestamp")
      ∧ (∀ p ∈ ([("symbol", "BTCUSDT"), ("limit", "1000")] : List (String × String)),
        p.1 ≠ "recvWindow")
      ∧ (∀ p ∈ ([("symbol", "BTCUSDT"), ("limit", "1000")] : List (String × String)),
        p.1 ≠ "signature"))
    ∧ sign (fun s m => s ++ "#" ++ m) "secretk" 1700000000000
        [("symbol", "BTCUSDT"), ("limit", "1000")]
      = [("symbol", "BTCUSDT"), ("limit", "1000"),
          ("timestamp", toString (1700000000000 : ℕ)), ("recvWindow", "5000"),
          ("signature", (fun s m => s ++ "#" ++ m) "secretk" (urlencode
            [("symbol", "BTCUSDT"), ("limit", "1000"),
             ("timestamp", toString (1700000000000 : ℕ)), ("recvWindow", "5000")]))] :=
  ⟨⟨by decide, by decide, by decide⟩, by
    have h := (sign_spec (fun s m => s ++ "#" ++ m) "secretk" 1700000000000
      [("symbol", "BTCUSDT"), ("limit", "1000")] (by decide) (by decide) (by decide)).1
    simpa using h⟩

end CryptoPortfolio
